import Mathlib

/-!
Verification of the DWARF-to-index converter core
(`dwarf-stats/src/converter/dwarf.rs`).

The development shallowly embeds the converter: machine integers are `Nat`
with explicit `% 2 ^ 32` at the places the source performs an `as u32`
cast, the `BTreeMap` structures are sorted association lists (sortedness is
carried as a hypothesis where a theorem needs it), the `IndexSet` interning
tables are lists indexed by position, and fallible reader access is
`Except`.
-/

namespace Symbolic

/-- Truncating cast to `u32`, the meaning of Rust's `as u32`. -/
def u32Mod (n : Nat) : Nat := n % 2 ^ 32

/-- The constant `u32::MAX`, used by the source as an "unresolved" sentinel. -/
def u32MAX : Nat := 2 ^ 32 - 1

/-- Modelled from the spec: the `SourceLocation` record declared in
`converter/mod.rs` (not present under `src/`); its fields are exactly those
used by `dwarf.rs` (`file_idx`, `line`, `function_idx`, `inlined_into_idx`)
and §3 of the spec. -/
structure SourceLocation where
  file_idx : Nat
  line : Nat
  function_idx : Nat
  inlined_into_idx : Option Nat
deriving DecidableEq, Repr

/-- Modelled from the spec: the `File` record declared in `converter/mod.rs`
(not present under `src/`); fields as used by `PerCuCache::insert_file`. -/
structure File where
  directory_idx : Option Nat
  path_name_idx : Nat
deriving DecidableEq, Repr

/-- Modelled from the spec: the `Converter` state declared in
`converter/mod.rs` (not present under `src/`): three interning tables
(`strings`, `files`, `source_locations`, spec §4.1) and the global
address → source-location-handle map `ranges` (spec §3, "Global Range
Index"), kept as a sorted association list. -/
structure Converter where
  strings : List String
  files : List File
  source_locations : List SourceLocation
  ranges : List (Nat × Nat)
deriving DecidableEq, Repr

/-- Modelled from the spec: `IndexSet::insert_full` on the interning tables
(spec §4.1): return the index of the first equal element when the value is
already interned (leaving the table unchanged), else append the value and
return its fresh index. -/
def insertFull {α : Type} [DecidableEq α] : List α → α → Nat × List α
  | [], v => (0, [v])
  | x :: xs, v =>
    if x = v then (0, x :: xs)
    else
      let r := insertFull xs v
      (r.1 + 1, x :: r.2)

/-- Embedding of `Converter::insert_source_location` (dwarf.rs:121-123):
`self.source_locations.insert_full(source_location).0 as u32`. -/
def insert_source_location (c : Converter) (sl : SourceLocation) : Nat × Converter :=
  let r := insertFull c.source_locations sl
  (u32Mod r.1, { c with source_locations := r.2 })


/-! The range-splitting primitive `sub_ranges` (dwarf.rs:126-138).

The per-unit breakpoint map `BTreeMap<u32, SourceLocation>` is embedded as
an association list whose iteration order is its list order; a
strictly-ascending `List.Pairwise` hypothesis states sortedness where a
theorem needs the `BTreeMap` key order. -/

/-- Embedding of `ranges.range(range.end..).next()` followed by taking the
key (dwarf.rs:130-135): the key of the first entry at address ≥ `e`,
`none` when no such entry exists (the `Bound::Unbounded` case). -/
def upperKey (rs : List (Nat × SourceLocation)) (e : Nat) : Option Nat :=
  (rs.find? (fun p => e ≤ p.1)).map (fun p => p.1)

/-- Whether key `k` falls inside the bound pair
`(Bound::Included b, upper)` built by `sub_ranges` for query range `[b, e)`. -/
def inRangeKey (rs : List (Nat × SourceLocation)) (b e k : Nat) : Bool :=
  b ≤ k &&
    match upperKey rs e with
    | some u => k < u
    | none => true

/-- Embedding of `sub_ranges` (dwarf.rs:126-138): the sub-map of entries
with key in `[b, upper)` where `upper` is `upperKey`; this is
`ranges.range_mut((Bound::Included(b), upper_bound))` as the sub-list of
the sorted association list. -/
def sub_ranges (rs : List (Nat × SourceLocation)) (b e : Nat) :
    List (Nat × SourceLocation) :=
  rs.filter (fun p => inRangeKey rs b e p.1)

/-- A concrete breakpoint value used by the boundary examples of spec §8. -/
def bpExample (n : Nat) : SourceLocation := ⟨n, n, u32MAX, none⟩

/-- The breakpoint map at addresses {10, 20, 30} from spec §8. -/
def exampleMap : List (Nat × SourceLocation) :=
  [(10, bpExample 1), (20, bpExample 2), (30, bpExample 3)]

/-! The line-program decoder `parse_line_program` (dwarf.rs:255-296).

The gimli row iterator is embedded as a list of `LineRow` inputs; each
input row carries the fields the decoder reads: `end_sequence()`,
`address()` (u64), `file_index()` (u64) and `line()`
(`Option<NonZeroU64>`). -/

/-- An input row of the line-number program state machine, as read off
gimli's `rows().next_row()` by `parse_line_program`. -/
structure LineRow where
  end_sequence : Bool
  address : Nat
  file_index : Nat
  line : Option Nat
deriving DecidableEq, Repr

/-- Embedding of `LineProgramRow` (dwarf.rs:248-252): `address` is kept as
u64, `file_index` and `line` were truncated by `as u32`. -/
structure LineProgramRow where
  address : Nat
  file_index : Nat
  line : Nat
deriving DecidableEq, Repr

/-- Embedding of `LineSequence` (dwarf.rs:241-245); the source's `end`
field is named `seq_end` because `end` is a Lean keyword. -/
structure LineSequence where
  start : Nat
  seq_end : Nat
  rows : List LineProgramRow
deriving DecidableEq, Repr

/-- One iteration of the row loop of `parse_line_program`
(dwarf.rs:261-292) on the accumulator `(sequences, sequence_rows)`:
an end-of-sequence row closes the accumulated sequence (if nonempty) with
`start` the first accumulated address and `end` the marker's address; a
normal row overwrites the last accumulated row when the address repeats,
is dropped when (file, line) repeats, and is appended otherwise. -/
def lpStep (acc : List LineSequence × List LineProgramRow) (row : LineRow) :
    List LineSequence × List LineProgramRow :=
  if row.end_sequence then
    match acc.2.head? with
    | some first => (acc.1 ++ [⟨first.address, row.address, acc.2⟩], [])
    | none => acc
  else
    let address := row.address
    let file_index := u32Mod row.file_index
    let line := u32Mod (row.line.getD 0)
    match acc.2.getLast? with
    | some last_row =>
      if last_row.address = address then
        (acc.1, acc.2.dropLast ++ [{ last_row with file_index := file_index, line := line }])
      else if last_row.file_index = file_index ∧ last_row.line = line then
        acc
      else
        (acc.1, acc.2 ++ [⟨address, file_index, line⟩])
    | none => (acc.1, acc.2 ++ [⟨address, file_index, line⟩])

/-- Embedding of `parse_line_program` (dwarf.rs:255-296): fold the row loop
over the input rows, then sort the collected sequences by `start`
(`sequences.sort_by_key(|x| x.start)`). -/
def parse_line_program (rows : List LineRow) : List LineSequence :=
  ((rows.foldl lpStep ([], [])).1).mergeSort (fun a b => a.start ≤ b.start)

/-! The merge of a unit's breakpoints into the Global Range Index
(dwarf.rs:104-116). The `BTreeMap<u32, u32>` is a key-sorted association
list; `btreeLookup` is map lookup and `btreeInsert` key-ordered
insertion. -/

/-- Lookup in the global address → handle map. -/
def btreeLookup (m : List (Nat × Nat)) (k : Nat) : Option Nat :=
  match m with
  | [] => none
  | (k', v') :: rest => if k = k' then some v' else btreeLookup rest k

/-- Key-ordered insertion into the global address → handle map. -/
def btreeInsert (m : List (Nat × Nat)) (k v : Nat) : List (Nat × Nat) :=
  match m with
  | [] => [(k, v)]
  | (k', v') :: rest =>
    if k < k' then (k, v) :: (k', v') :: rest
    else if k = k' then (k, v) :: rest
    else (k', v') :: btreeInsert rest k v

/-- Embedding of one iteration of the merge loop (dwarf.rs:104-116): intern
the source location, then `self.ranges.entry(addr)`: a vacant entry
receives the handle, an occupied entry is left untouched (the handle is
silently discarded). -/
def mergeStep (c : Converter) (addr : Nat) (sl : SourceLocation) : Converter :=
  let r := insert_source_location c sl
  match btreeLookup r.2.ranges addr with
  | none => { r.2 with ranges := btreeInsert r.2.ranges addr r.1 }
  | some _ => r.2

/-- Embedding of the whole merge loop: fold `mergeStep` over the unit's
breakpoint list. -/
def mergeRanges (c : Converter) (lpr : List (Nat × SourceLocation)) : Converter :=
  lpr.foldl (fun acc p => mergeStep acc p.1 p.2) c

/-! The file resolver `PerCuCache::insert_file` (dwarf.rs:178-217). -/

/-- An error surfaced by the gimli reader (`gimli::Error`); its content is
irrelevant to the converter, which only propagates it. -/
structure GimliError where
  code : Nat
deriving DecidableEq, Repr

/-- One entry of the unit's line-program-header file table as consumed by
`insert_file`: the optional directory attribute and the path attribute.
Resolution through `dwarf.attr_string(..)?.to_string_lossy()?` may fail
with a reader error, so each attribute is embedded as an `Except` result
of that resolution. -/
structure FileEntry where
  directory : Option (Except GimliError String)
  path_name : Except GimliError String
deriving Repr

/-- Embedding of `PerCuCache` (dwarf.rs:151-176): the reusable per-unit
file-index → file-handle cache (`ReusableCaches::file_mapping`, a
`HashMap<u32, u32>` embedded as an association list) together with the
unit's line-program-header file table (`header.file(..)` lookups become
positional list lookups). -/
structure PerCuCache where
  file_mapping : List (Nat × Nat)
  fileTable : List FileEntry
deriving Repr

/-- Embedding of the directory branch of `insert_file` (dwarf.rs:188-197):
resolve and intern the directory string when the attribute is present. -/
def resolveDirectory (conv : Converter) (dir : Option (Except GimliError String)) :
    Except GimliError (Option Nat × Converter) :=
  match dir with
  | some dirAttr =>
    match dirAttr with
    | .error e => .error e
    | .ok directory =>
      let r := insertFull conv.strings directory
      .ok (some (u32Mod r.1), { conv with strings := r.2 })
  | none => .ok (none, conv)

/-- Embedding of `PerCuCache::insert_file` (dwarf.rs:178-217): consult the
per-unit cache first; on a cache miss look the index up in the unit's file
table, returning the sentinel `u32MAX` when the table has no such entry;
otherwise intern directory and path strings, intern the `File`, record the
handle in the cache and return it. -/
def insert_file (cache : PerCuCache) (conv : Converter) (file_index : Nat) :
    Except GimliError (Nat × PerCuCache × Converter) :=
  match btreeLookup cache.file_mapping (u32Mod file_index) with
  | some v => .ok (v, cache, conv)
  | none =>
    match cache.fileTable[file_index]? with
    | none => .ok (u32MAX, cache, conv)
    | some file =>
      match resolveDirectory conv file.directory with
      | .error e => .error e
      | .ok (directory_idx, conv1) =>
        match file.path_name with
        | .error e => .error e
        | .ok path_name =>
          let r2 := insertFull conv1.strings path_name
          let conv2 := { conv1 with strings := r2.2 }
          let r3 := insertFull conv2.files ⟨directory_idx, u32Mod r2.1⟩
          let conv3 := { conv2 with files := r3.2 }
          let file_idx := u32Mod r3.1
          .ok (file_idx,
            { cache with
              file_mapping := cache.file_mapping ++ [(u32Mod file_index, file_idx)] },
            conv3)

/-! The inlined-subroutine branch of `process_dwarf_cu` (dwarf.rs:71-92). -/

/-- Embedding of the caller-file computation (dwarf.rs:72-75): resolve the
`DW_AT_call_file` attribute through `insert_file` when present, else use
file handle 0. -/
def resolveCallerFile (cache : PerCuCache) (conv : Converter) (ci : Option Nat) :
    Except GimliError (Nat × PerCuCache × Converter) :=
  match ci with
  | some file_id => insert_file cache conv file_id
  | none => .ok (0, cache, conv)

/-- Embedding of the caller-line computation (dwarf.rs:76):
`caller_info.1.unwrap_or(0) as u32`. -/
def resolveCallerLine (ci : Option Nat) : Nat := u32Mod (ci.getD 0)

/-- Association-list lookup in a per-unit breakpoint map. -/
def lookupSL (rs : List (Nat × SourceLocation)) (k : Nat) : Option SourceLocation :=
  match rs with
  | [] => none
  | (k', v) :: rest => if k = k' then some v else lookupSL rest k

/-- Embedding of the per-breakpoint body of the inlined-subroutine branch
(dwarf.rs:85-91): clone the callee location, overwrite its file and line
with the call-site file and line to obtain the caller location, intern the
caller, then point the callee's `inlined_into_idx` at the returned handle
and set its `function_idx` to the (unresolved) inlined routine marker. -/
def processInlinedBreakpoint (c : Converter) (caller_file caller_line : Nat)
    (callee : SourceLocation) : Converter × SourceLocation :=
  let caller := { callee with file_idx := caller_file, line := caller_line }
  let r := insert_source_location c caller
  (r.2, { callee with inlined_into_idx := some r.1, function_idx := u32MAX })

/-- Embedding of the loop `for callee_source_location in sub_ranges(..)`
over the association list: entries whose key the selection predicate
accepts are rewritten by `processInlinedBreakpoint`, threading the
converter left to right; all other entries are untouched. -/
def processEntries (c : Converter) (cf cl : Nat) (sel : Nat → Bool) :
    List (Nat × SourceLocation) → Converter × List (Nat × SourceLocation)
  | [] => (c, [])
  | (k, v) :: rest =>
    if sel k then
      let r := processInlinedBreakpoint c cf cl v
      let rr := processEntries r.1 cf cl sel rest
      (rr.1, (k, r.2) :: rr.2)
    else
      let rr := processEntries c cf cl sel rest
      (rr.1, (k, v) :: rr.2)

/-- Embedding of the inlined-subroutine handling of one PC range `[b, e)`
(dwarf.rs:84-92): rewrite exactly the breakpoints selected by
`sub_ranges` (by definition the entries whose key satisfies
`inRangeKey rs b e`). -/
def processInlinedRange (c : Converter) (cf cl : Nat)
    (rs : List (Nat × SourceLocation)) (b e : Nat) :
    Converter × List (Nat × SourceLocation) :=
  processEntries c cf cl (fun k => inRangeKey rs b e k) rs

/-! Chain termination (claim C3): machinery for following
`inlined_into_idx` handles through the source-location table. -/

/-- Every `inlined_into_idx` handle of `sl` is below `n`. -/
def handlesBelow (n : Nat) (sl : SourceLocation) : Bool :=
  match sl.inlined_into_idx with
  | some h => h < n
  | none => true

/-- Well-formedness of the source-location table: every interned location
only points at strictly earlier interned locations. -/
def tableWF (t : List SourceLocation) : Prop :=
  ∀ i sl, t[i]? = some sl → handlesBelow i sl = true

/-- Fuel-bounded chain walk: starting from handle `h`, follow
`inlined_into_idx` through table `t`; `true` means a location with no
`inlined_into_idx` was reached within the given fuel. -/
def reachesRoot (t : List SourceLocation) : Nat → Nat → Bool
  | 0, _ => false
  | fuel + 1, h =>
    match t[h]? with
    | none => false
    | some sl =>
      match sl.inlined_into_idx with
      | none => true
      | some h2 => reachesRoot t fuel h2

/-! Concrete states for the sentinel-collision counterexamples
(claims C9 and C10). -/

/-- A file table holding `u32MAX` distinct files. -/
def bigFiles : List File := (List.range u32MAX).map (fun i => ⟨some i, 0⟩)

/-- A converter whose file table already holds `u32MAX` distinct files. -/
def bigFilesConverter : Converter := ⟨[], bigFiles, [], []⟩

/-- An empty per-unit cache over a one-entry file table whose entry
resolves without error. -/
def sentinelFileCache : PerCuCache :=
  ⟨[], [⟨none, Except.ok "a"⟩]⟩

/-- The per-unit cache property claimed by C10: every cached pair maps an
index that exists in the unit's file table to a non-sentinel handle. -/
def cacheInv (cache : PerCuCache) : Prop :=
  ∀ p ∈ cache.file_mapping, (cache.fileTable[p.1]?).isSome = true ∧ p.2 ≠ u32MAX

/-! Basic lemmas about `insertFull`. -/

theorem insertFull_of_mem {α : Type} [DecidableEq α] {t : List α} {v : α} (h : v ∈ t) :
    (insertFull t v).2 = t := by
  induction t with
  | nil => cases h
  | cons x xs ih =>
    by_cases hx : x = v
    · simp [insertFull, hx]
    · rcases List.mem_cons.mp h with h1 | h2
      · exact absurd h1.symm hx
      · simp [insertFull, hx, ih h2]

theorem insertFull_of_not_mem {α : Type} [DecidableEq α] {t : List α} {v : α} (h : v ∉ t) :
    insertFull t v = (t.length, t ++ [v]) := by
  induction t with
  | nil => simp [insertFull]
  | cons x xs ih =>
    have hx : x ≠ v := fun he => h (he ▸ List.mem_cons_self x xs)
    have hxs : v ∉ xs := fun hm => h (List.mem_cons_of_mem _ hm)
    simp [insertFull, hx, ih hxs]

theorem insertFull_idx_lt_of_mem {α : Type} [DecidableEq α] {t : List α} {v : α} (h : v ∈ t) :
    (insertFull t v).1 < t.length := by
  induction t with
  | nil => cases h
  | cons x xs ih =>
    by_cases hx : x = v
    · simp [insertFull, hx]
    · rcases List.mem_cons.mp h with h1 | h2
      · exact absurd h1.symm hx
      · simpa [insertFull, hx] using Nat.succ_lt_succ (ih h2)

theorem insertFull_getElem_idx {α : Type} [DecidableEq α] (t : List α) (v : α) :
    (insertFull t v).2[(insertFull t v).1]? = some v := by
  induction t with
  | nil => simp [insertFull]
  | cons x xs ih =>
    by_cases hx : x = v
    · simp [insertFull, hx]
    · simpa [insertFull, hx] using ih

theorem insertFull_snd_eq_or {α : Type} [DecidableEq α] (t : List α) (v : α) :
    (insertFull t v).2 = t ∨ (insertFull t v).2 = t ++ [v] := by
  by_cases h : v ∈ t
  · exact Or.inl (insertFull_of_mem h)
  · exact Or.inr (by rw [insertFull_of_not_mem h])

theorem insertFull_getElem_stable {α : Type} [DecidableEq α] (t : List α) (v : α)
    {i : Nat} (hi : i < t.length) :
    (insertFull t v).2[i]? = t[i]? := by
  rcases insertFull_snd_eq_or t v with h | h
  · rw [h]
  · rw [h, List.getElem?_append_left hi]

theorem insertFull_length_le {α : Type} [DecidableEq α] (t : List α) (v : α) :
    t.length ≤ (insertFull t v).2.length := by
  rcases insertFull_snd_eq_or t v with h | h
  · rw [h]
  · rw [h]; simp

theorem insertFull_idx_lt_length {α : Type} [DecidableEq α] (t : List α) (v : α) :
    (insertFull t v).1 < (insertFull t v).2.length := by
  by_cases h : v ∈ t
  · rw [insertFull_of_mem h]
    exact insertFull_idx_lt_of_mem h
  · rw [insertFull_of_not_mem h]
    simp

/-- For a strictly sorted breakpoint map, the key found by `upperKey` is a
key of the map, is at least `e`, and is the least key that is at least `e`:
it is the key of the first entry at address ≥ `e`. -/
theorem upperKey_min {rs : List (Nat × SourceLocation)} {e : Nat}
    (hs : rs.Pairwise (fun p q => p.1 < q.1)) {u : Nat} (hu : upperKey rs e = some u) :
    (∃ v, (u, v) ∈ rs) ∧ e ≤ u ∧ ∀ q ∈ rs, e ≤ q.1 → u ≤ q.1 := by
  induction rs with
  | nil => cases hu
  | cons x xs ih =>
    rw [List.pairwise_cons] at hs
    by_cases hx : e ≤ x.1
    · have hux : u = x.1 := by
        simp [upperKey, List.find?, hx] at hu
        exact hu.symm
      subst hux
      refine ⟨⟨x.2, by simp⟩, hx, ?_⟩
      intro q hq hqe
      rcases List.mem_cons.mp hq with rfl | hq2
      · exact Nat.le_refl _
      · exact Nat.le_of_lt (hs.1 q hq2)
    · have hu' : upperKey xs e = some u := by
        simpa [upperKey, List.find?, hx] using hu
      obtain ⟨⟨v, hv⟩, heu, hmin⟩ := ih hs.2 hu'
      refine ⟨⟨v, List.mem_cons_of_mem _ hv⟩, heu, ?_⟩
      intro q hq hqe
      rcases List.mem_cons.mp hq with rfl | hq2
      · exact absurd hqe hx
      · exact hmin q hq2 hqe

/-- When `upperKey` finds nothing, every key of the map is below `e`
(the `Bound::Unbounded` case of `sub_ranges`). -/
theorem upperKey_none {rs : List (Nat × SourceLocation)} {e : Nat}
    (hu : upperKey rs e = none) : ∀ q ∈ rs, q.1 < e := by
  intro q hq
  unfold upperKey at hu
  cases hfind : rs.find? (fun p => e ≤ p.1) with
  | some p => rw [hfind] at hu; cases hu
  | none =>
    have := List.find?_eq_none.mp hfind q hq
    simpa using Nat.lt_of_not_le (by simpa using this)

/-- C1: for every sorted breakpoint map and half-open range `[b, e)`,
`sub_ranges` yields exactly the entries with key in `[b, upper)`, where
`upper` is the key of the first entry at address ≥ `e` (characterised as the
least such key) when one exists and is unbounded otherwise; concretely, over
breakpoints {10, 20, 30} the range [12, 25) selects exactly the entry at 20,
a key exactly equal to `e` is excluded ([12, 20) selects nothing), and when
no key ≥ `e` exists the result extends through the last breakpoint
([12, 40) selects 20 and 30). -/
theorem sub_ranges_selects_exactly_claim_C1 :
    (∀ (rs : List (Nat × SourceLocation)) (b e : Nat), b ≤ e →
      rs.Pairwise (fun p q => p.1 < q.1) →
      (∀ p, p ∈ sub_ranges rs b e ↔
        p ∈ rs ∧ b ≤ p.1 ∧ ∀ u, upperKey rs e = some u → p.1 < u)
      ∧ (∀ u, upperKey rs e = some u →
          (∃ v, (u, v) ∈ rs) ∧ e ≤ u ∧ ∀ q ∈ rs, e ≤ q.1 → u ≤ q.1)
      ∧ (upperKey rs e = none → ∀ q ∈ rs, q.1 < e))
    ∧ sub_ranges exampleMap 12 25 = [(20, bpExample 2)]
    ∧ sub_ranges exampleMap 12 20 = []
    ∧ sub_ranges exampleMap 12 40 = [(20, bpExample 2), (30, bpExample 3)] := by
  refine ⟨?_, by decide, by decide, by decide⟩
  intro rs b e _hbe hs
  refine ⟨?_, fun u hu => upperKey_min hs hu, upperKey_none⟩
  intro p
  rw [sub_ranges, List.mem_filter]
  cases hup : upperKey rs e with
  | some u => simp [inRangeKey, hup, and_assoc]
  | none => simp [inRangeKey, hup]

/-- Witness for C1: instantiating the range-splitting theorem on the
concrete map {10, 20, 30} with range [12, 25), whose upper bound is the
breakpoint 30. -/
theorem sub_ranges_selects_exactly_claim_C1_witness :
    (∃ v, (30, v) ∈ exampleMap) ∧ 25 ≤ 30 ∧ ∀ q ∈ exampleMap, 25 ≤ q.1 → 30 ≤ q.1 :=
  (sub_ranges_selects_exactly_claim_C1.1 exampleMap 12 25 (by decide)
    (by decide)).2.1 30 (by decide)

/-! Claim C5: interning idempotence. -/

/-- Inserting into a table that already ends with the value finds it at the
position where it was appended. -/
theorem insertFull_append_self {α : Type} [DecidableEq α] {t : List α} {v : α}
    (h : v ∉ t) : (insertFull (t ++ [v]) v).1 = t.length := by
  induction t with
  | nil => simp [insertFull]
  | cons x xs ih =>
    have hx : x ≠ v := fun he => h (he ▸ List.mem_cons_self x xs)
    have hxs : v ∉ xs := fun hm => h (List.mem_cons_of_mem _ hm)
    simp [insertFull, hx, ih hxs]

/-- Re-inserting a value returns the same index as its first insertion. -/
theorem insertFull_fst_again {α : Type} [DecidableEq α] (t : List α) (v : α) :
    (insertFull (insertFull t v).2 v).1 = (insertFull t v).1 := by
  by_cases h : v ∈ t
  · rw [insertFull_of_mem h]
  · rw [insertFull_of_not_mem h]
    exact insertFull_append_self h

/-- C5: for every interning table and value, inserting the value twice
returns the same handle both times (also through
`insert_source_location`); the first insertion of a not-yet-present value
assigns the next sequential handle (the current size) and grows the table
by exactly one; inserting an already-present value leaves the table
unchanged. -/
theorem interning_idempotent_claim_C5 {α : Type} [DecidableEq α] (t : List α) (v : α) :
    ((insertFull (insertFull t v).2 v).1 = (insertFull t v).1
      ∧ (insertFull (insertFull t v).2 v).2 = (insertFull t v).2)
    ∧ (v ∉ t → (insertFull t v).1 = t.length ∧ (insertFull t v).2.length = t.length + 1)
    ∧ (v ∈ t → (insertFull t v).2 = t)
    ∧ ∀ (c : Converter) (sl : SourceLocation),
        (insert_source_location (insert_source_location c sl).2 sl).1 =
          (insert_source_location c sl).1 := by
  refine ⟨⟨insertFull_fst_again t v, ?_⟩, ?_, insertFull_of_mem, ?_⟩
  · have hmem : v ∈ (insertFull t v).2 := by
      have := insertFull_getElem_idx t v
      exact List.getElem?_mem this
    exact insertFull_of_mem hmem
  · intro h
    rw [insertFull_of_not_mem h]
    simp
  · intro c sl
    simp only [insert_source_location, insertFull_fst_again]

/-- Witness for C5: inserting 1 into the table [0]. -/
theorem interning_idempotent_claim_C5_witness :
    (insertFull [0] 1).1 = 1 ∧ (insertFull [0] 1).2.length = 1 + 1 :=
  (interning_idempotent_claim_C5 [0] 1).2.1 (by decide)


/-- C6: a normal row whose address equals the previously accumulated row's
address overwrites that row's file and line in place (no row is appended),
and a whole program of two same-address rows followed by an end marker
yields a single row carrying the second row's values. -/
theorem decoder_same_address_overwrites_claim_C6 :
    (∀ (seqs : List LineSequence) (rows : List LineProgramRow) (r : LineRow)
      (last : LineProgramRow), r.end_sequence = false →
      rows.getLast? = some last → last.address = r.address →
      lpStep (seqs, rows) r =
        (seqs,
          rows.dropLast ++ [⟨last.address, u32Mod r.file_index, u32Mod (r.line.getD 0)⟩]))
    ∧ ∀ (A f1 l1 f2 l2 E : Nat), f2 < 2 ^ 32 → l2 < 2 ^ 32 →
        parse_line_program
            [⟨false, A, f1, some l1⟩, ⟨false, A, f2, some l2⟩, ⟨true, E, 0, none⟩] =
          [⟨A, E, [⟨A, f2, l2⟩]⟩] := by
  constructor
  · intro seqs rows r last he hl ha
    simp [lpStep, he, hl, ha]
  · intro A f1 l1 f2 l2 E hf2 hl2
    simp [parse_line_program, lpStep, u32Mod, Nat.mod_eq_of_lt, List.mergeSort]
    omega

/-- Witness for C6: rows at addresses 5, 5 with values (1, 7) then (2, 8)
collapse to the single row (5, 2, 8). -/
theorem decoder_same_address_overwrites_claim_C6_witness :
    parse_line_program
        [⟨false, 5, 1, some 7⟩, ⟨false, 5, 2, some 8⟩, ⟨true, 9, 0, none⟩] =
      [⟨5, 9, [⟨5, 2, 8⟩]⟩] :=
  decoder_same_address_overwrites_claim_C6.2 5 1 7 2 8 9 (by decide) (by decide)

/-- C7: a normal row at a fresh address whose (file, line) equals the
previously accumulated row's pair is dropped, and a whole program of two
such rows followed by an end marker yields only the first row. -/
theorem decoder_redundant_row_dropped_claim_C7 :
    (∀ (seqs : List LineSequence) (rows : List LineProgramRow) (r : LineRow)
      (last : LineProgramRow), r.end_sequence = false →
      rows.getLast? = some last → last.address ≠ r.address →
      last.file_index = u32Mod r.file_index → last.line = u32Mod (r.line.getD 0) →
      lpStep (seqs, rows) r = (seqs, rows))
    ∧ ∀ (A1 A2 f l E : Nat), A1 ≠ A2 → f < 2 ^ 32 → l < 2 ^ 32 →
        parse_line_program
            [⟨false, A1, f, some l⟩, ⟨false, A2, f, some l⟩, ⟨true, E, 0, none⟩] =
          [⟨A1, E, [⟨A1, f, l⟩]⟩] := by
  constructor
  · intro seqs rows r last he hl ha hf hline
    simp [lpStep, he, hl, ha, hf, hline]
  · intro A1 A2 f l E hA hf hl
    simp [parse_line_program, lpStep, u32Mod, Nat.mod_eq_of_lt, hf, hl, List.mergeSort, hA]
    omega

/-- Witness for C7: rows at addresses 5 and 6 both carrying (1, 7) yield
only the row at 5. -/
theorem decoder_redundant_row_dropped_claim_C7_witness :
    parse_line_program
        [⟨false, 5, 1, some 7⟩, ⟨false, 6, 1, some 7⟩, ⟨true, 9, 0, none⟩] =
      [⟨5, 9, [⟨5, 1, 7⟩]⟩] :=
  decoder_redundant_row_dropped_claim_C7.2 5 6 1 7 9 (by decide) (by decide) (by decide)

/-- C8: an end-of-sequence marker with accumulated rows closes a sequence
running from the first accumulated row's address to the marker's address
and resets the accumulator; a marker with no accumulated rows produces no
sequence; and the returned sequence list is always sorted by `start`. -/
theorem decoder_sequences_claim_C8 :
    (∀ (seqs : List LineSequence) (rows : List LineProgramRow) (r : LineRow)
      (first : LineProgramRow), r.end_sequence = true → rows.head? = some first →
      lpStep (seqs, rows) r = (seqs ++ [⟨first.address, r.address, rows⟩], []))
    ∧ (∀ (seqs : List LineSequence) (r : LineRow), r.end_sequence = true →
        lpStep (seqs, []) r = (seqs, []))
    ∧ ∀ (input : List LineRow),
        (parse_line_program input).Pairwise (fun a b => a.start ≤ b.start) := by
  refine ⟨?_, ?_, ?_⟩
  · intro seqs rows r first he hh
    simp [lpStep, he, hh]
  · intro seqs r he
    simp [lpStep, he]
  · intro input
    have h := @List.sorted_mergeSort LineSequence
      (fun a b => decide (a.start ≤ b.start))
      (fun a b c hab hbc => by simp at *; omega)
      (fun a b => by simp; omega)
      ((input.foldl lpStep ([], [])).1)
    refine List.Pairwise.imp ?_ h
    intro a b hab
    simpa using hab

/-- Witness for C8: closing a one-row accumulator at marker address 9, and
a no-op marker on an empty accumulator. -/
theorem decoder_sequences_claim_C8_witness :
    lpStep ([], [⟨5, 1, 7⟩]) ⟨true, 9, 0, none⟩ = ([⟨5, 9, [⟨5, 1, 7⟩]⟩], []) :=
  decoder_sequences_claim_C8.1 [] [⟨5, 1, 7⟩] ⟨true, 9, 0, none⟩ ⟨5, 1, 7⟩ rfl rfl


theorem btreeLookup_insert_self (m : List (Nat × Nat)) (k v : Nat) :
    btreeLookup (btreeInsert m k v) k = some v := by
  induction m with
  | nil => simp [btreeInsert, btreeLookup]
  | cons p rest ih =>
    obtain ⟨k', v'⟩ := p
    by_cases h1 : k < k'
    · simp [btreeInsert, h1, btreeLookup]
    · by_cases h2 : k = k'
      · simp [btreeInsert, h1, h2, btreeLookup]
      · simp [btreeInsert, h1, h2, btreeLookup, ih]

theorem btreeLookup_insert_other (m : List (Nat × Nat)) (k v k' : Nat) (h : k' ≠ k) :
    btreeLookup (btreeInsert m k v) k' = btreeLookup m k' := by
  induction m with
  | nil => simp [btreeInsert, btreeLookup, h]
  | cons p rest ih =>
    obtain ⟨k0, v0⟩ := p
    by_cases h1 : k < k0
    · simp [btreeInsert, h1, btreeLookup, h]
    · by_cases h2 : k = k0
      · subst h2
        simp [btreeInsert, h1, btreeLookup, h]
      · by_cases h3 : k' = k0
        · simp [btreeInsert, h1, h2, btreeLookup, h3]
        · simp [btreeInsert, h1, h2, btreeLookup, h3, ih]

/-- C4: merging at an address already present in the Global Range Index
leaves the index unchanged (the new location's handle is silently
discarded, no error value exists on this path); merging at an absent
address inserts the interned handle there; and a whole-unit merge
(`mergeRanges`) never changes the handle stored at an already-present
address (first-writer-wins across compilation units). -/
theorem merge_first_writer_wins_claim_C4 :
    (∀ (c : Converter) (addr : Nat) (sl : SourceLocation) (v : Nat),
      btreeLookup c.ranges addr = some v → (mergeStep c addr sl).ranges = c.ranges)
    ∧ (∀ (c : Converter) (addr : Nat) (sl : SourceLocation),
        btreeLookup c.ranges addr = none →
        (mergeStep c addr sl).ranges =
            btreeInsert c.ranges addr (insert_source_location c sl).1
          ∧ btreeLookup (mergeStep c addr sl).ranges addr =
              some (insert_source_location c sl).1)
    ∧ ∀ (c : Converter) (lpr : List (Nat × SourceLocation)) (addr v : Nat),
        btreeLookup c.ranges addr = some v →
        btreeLookup (mergeRanges c lpr).ranges addr = some v := by
  have hpres : ∀ (c : Converter) (k : Nat) (sl : SourceLocation) (addr v : Nat),
      btreeLookup c.ranges addr = some v →
      btreeLookup (mergeStep c k sl).ranges addr = some v := by
    intro c k sl addr v h
    by_cases hk : k = addr
    · subst hk
      simp [mergeStep, insert_source_location, h]
    · simp only [mergeStep, insert_source_location]
      cases hl : btreeLookup c.ranges k with
      | none =>
        simpa [hl, btreeLookup_insert_other _ _ _ _ (fun he => hk he.symm)] using h
      | some w => simpa [hl] using h
  refine ⟨?_, ?_, ?_⟩
  · intro c addr sl v h
    simp [mergeStep, insert_source_location, h]
  · intro c addr sl h
    refine ⟨?_, ?_⟩
    · simp [mergeStep, insert_source_location, h]
    · simp [mergeStep, insert_source_location, h, btreeLookup_insert_self]
  · intro c lpr
    induction lpr generalizing c with
    | nil => intro addr v h; simpa [mergeRanges] using h
    | cons p rest ih =>
      intro addr v h
      have h1 := hpres c p.1 p.2 addr v h
      have := ih (mergeStep c p.1 p.2) addr v h1
      simpa [mergeRanges] using this

/-- Witness for C4: merging a second location at the already-occupied
address 7 leaves the single-entry index unchanged. -/
theorem merge_first_writer_wins_claim_C4_witness :
    (mergeStep ⟨[], [], [bpExample 1], [(7, 0)]⟩ 7 (bpExample 2)).ranges = [(7, 0)] :=
  merge_first_writer_wins_claim_C4.1 ⟨[], [], [bpExample 1], [(7, 0)]⟩ 7 (bpExample 2) 0 rfl

/-! Lemmas for chain termination (claim C3). -/

theorem handlesBelow_mono {n m : Nat} {sl : SourceLocation} (hnm : n ≤ m)
    (h : handlesBelow n sl = true) : handlesBelow m sl = true := by
  unfold handlesBelow at *
  cases hsl : sl.inlined_into_idx with
  | none => rfl
  | some h2 =>
    rw [hsl] at h
    simp at *
    omega

theorem reachesRoot_mono {t : List SourceLocation} :
    ∀ {f f' h : Nat}, f ≤ f' → reachesRoot t f h = true → reachesRoot t f' h = true := by
  intro f
  induction f with
  | zero =>
    intro f' h _ hr
    simp [reachesRoot] at hr
  | succ n ih =>
    intro f' h hle hr
    obtain ⟨m, rfl⟩ : ∃ m, f' = m + 1 := ⟨f' - 1, by omega⟩
    cases hget : t[h]? with
    | none => simp [reachesRoot, hget] at hr
    | some sl =>
      cases hin : sl.inlined_into_idx with
      | none => simp [reachesRoot, hget, hin]
      | some h2 =>
        simp only [reachesRoot, hget, hin] at hr ⊢
        exact ih (by omega) hr

theorem tableWF_reaches {t : List SourceLocation} (hwf : tableWF t) :
    ∀ h, h < t.length → reachesRoot t (h + 1) h = true := by
  intro h
  induction h using Nat.strong_induction_on with
  | _ h ih =>
    intro hlt
    cases hget : t[h]? with
    | none =>
      have : t.length ≤ h := by simpa using List.getElem?_eq_none_iff.mp hget
      omega
    | some sl =>
      have hb := hwf h sl hget
      cases hin : sl.inlined_into_idx with
      | none => simp [reachesRoot, hget, hin]
      | some h2 =>
        have hh2 : h2 < h := by
          unfold handlesBelow at hb
          rw [hin] at hb
          simpa using hb
        have hrec := ih h2 hh2 (by omega)
        simp only [reachesRoot, hget, hin]
        exact reachesRoot_mono (by omega) hrec

theorem insertFull_preserves_WF {t : List SourceLocation} {sl : SourceLocation}
    (hwf : tableWF t) (hb : handlesBelow t.length sl = true) :
    tableWF (insertFull t sl).2 := by
  intro i sl' hget
  rcases insertFull_snd_eq_or t sl with h | h
  · rw [h] at hget
    exact hwf i sl' hget
  · rw [h] at hget
    by_cases hi : i < t.length
    · rw [List.getElem?_append_left hi] at hget
      exact hwf i sl' hget
    · rw [List.getElem?_append_right (by omega)] at hget
      cases hd : i - t.length with
      | zero =>
        rw [hd] at hget
        simp at hget
        subst hget
        exact handlesBelow_mono (by omega) hb
      | succ n =>
        rw [hd] at hget
        simp at hget

theorem insertFull_length_le_succ {α : Type} [DecidableEq α] (t : List α) (v : α) :
    (insertFull t v).2.length ≤ t.length + 1 := by
  rcases insertFull_snd_eq_or t v with h | h
  · rw [h]; omega
  · rw [h]; simp

/-- The interning state only grows along `processEntries`: lengths increase
and already-interned entries keep their position and content. -/
theorem processEntries_mono (cf cl : Nat) (sel : Nat → Bool) :
    ∀ (rs : List (Nat × SourceLocation)) (c : Converter),
      c.source_locations.length ≤ (processEntries c cf cl sel rs).1.source_locations.length
      ∧ ∀ i, i < c.source_locations.length →
          (processEntries c cf cl sel rs).1.source_locations[i]? = c.source_locations[i]? := by
  intro rs
  induction rs with
  | nil =>
    intro c
    exact ⟨Nat.le_refl _, fun i _ => rfl⟩
  | cons p rest ih =>
    intro c
    obtain ⟨k, v⟩ := p
    by_cases hsel : sel k = true
    · have h1le : c.source_locations.length ≤
          (processInlinedBreakpoint c cf cl v).1.source_locations.length := by
        simp only [processInlinedBreakpoint, insert_source_location]
        exact insertFull_length_le _ _
      have h1st : ∀ i, i < c.source_locations.length →
          (processInlinedBreakpoint c cf cl v).1.source_locations[i]? =
            c.source_locations[i]? := by
        intro i hi
        simp only [processInlinedBreakpoint, insert_source_location]
        exact insertFull_getElem_stable _ _ hi
      obtain ⟨ihle, ihst⟩ := ih (processInlinedBreakpoint c cf cl v).1
      simp only [processEntries, hsel, if_true]
      refine ⟨by omega, ?_⟩
      intro i hi
      rw [ihst i (lt_of_lt_of_le hi h1le), h1st i hi]
    · simp only [processEntries, hsel, if_false]
      exact ih c

theorem processEntries_preserves_WF (cf cl : Nat) (sel : Nat → Bool) :
    ∀ (rs : List (Nat × SourceLocation)) (c : Converter),
      tableWF c.source_locations →
      (∀ p ∈ rs, handlesBelow c.source_locations.length p.2 = true) →
      tableWF (processEntries c cf cl sel rs).1.source_locations
      ∧ ∀ p ∈ (processEntries c cf cl sel rs).2,
          handlesBelow (processEntries c cf cl sel rs).1.source_locations.length p.2 = true := by
  intro rs
  induction rs with
  | nil =>
    intro c hwf _
    exact ⟨hwf, by simp [processEntries]⟩
  | cons p rest ih =>
    intro c hwf hall
    obtain ⟨k, v⟩ := p
    have hv : handlesBelow c.source_locations.length v = true := hall (k, v) (by simp)
    have hrest : ∀ q ∈ rest, handlesBelow c.source_locations.length q.2 = true :=
      fun q hq => hall q (List.mem_cons_of_mem _ hq)
    by_cases hsel : sel k = true
    · have hcaller : handlesBelow c.source_locations.length
          ({ v with file_idx := cf, line := cl } : SourceLocation) = true := by
        simpa [handlesBelow] using hv
      have hwf1 : tableWF (processInlinedBreakpoint c cf cl v).1.source_locations := by
        simp only [processInlinedBreakpoint, insert_source_location]
        exact insertFull_preserves_WF hwf hcaller
      have hlen1 : c.source_locations.length ≤
          (processInlinedBreakpoint c cf cl v).1.source_locations.length := by
        simp only [processInlinedBreakpoint, insert_source_location]
        exact insertFull_length_le _ _
      have hv' : handlesBelow (processInlinedBreakpoint c cf cl v).1.source_locations.length
          (processInlinedBreakpoint c cf cl v).2 = true := by
        simp only [processInlinedBreakpoint, insert_source_location, handlesBelow]
        have h1 := insertFull_idx_lt_length c.source_locations
          ({ v with file_idx := cf, line := cl })
        have h2 : u32Mod (insertFull c.source_locations
              { v with file_idx := cf, line := cl }).1 ≤
            (insertFull c.source_locations { v with file_idx := cf, line := cl }).1 :=
          Nat.mod_le _ _
        simp
        omega
      have hrest1 : ∀ q ∈ rest,
          handlesBelow (processInlinedBreakpoint c cf cl v).1.source_locations.length q.2
            = true :=
        fun q hq => handlesBelow_mono hlen1 (hrest q hq)
      obtain ⟨hwfF, hallF⟩ := ih (processInlinedBreakpoint c cf cl v).1 hwf1 hrest1
      have hmono := processEntries_mono cf cl sel rest (processInlinedBreakpoint c cf cl v).1
      constructor
      · simpa [processEntries, hsel] using hwfF
      · intro q hq
        simp only [processEntries, hsel, if_true] at hq ⊢
        rcases List.mem_cons.mp hq with rfl | hq2
        · exact handlesBelow_mono hmono.1 hv'
        · exact hallF q hq2
    · obtain ⟨hwfF, hallF⟩ := ih c hwf hrest
      constructor
      · simpa [processEntries, hsel] using hwfF
      · intro q hq
        simp only [processEntries, hsel, if_false] at hq ⊢
        rcases List.mem_cons.mp hq with rfl | hq2
        · exact handlesBelow_mono (processEntries_mono cf cl sel rest c).1 hv
        · exact hallF q hq2

theorem mergeStep_source_locations (c : Converter) (addr : Nat) (sl : SourceLocation) :
    (mergeStep c addr sl).source_locations = (insertFull c.source_locations sl).2 := by
  cases h : btreeLookup c.ranges addr with
  | none => simp [mergeStep, insert_source_location, h]
  | some v => simp [mergeStep, insert_source_location, h]

theorem mergeRanges_preserves_WF :
    ∀ (lpr : List (Nat × SourceLocation)) (c : Converter),
      tableWF c.source_locations →
      (∀ p ∈ lpr, handlesBelow c.source_locations.length p.2 = true) →
      tableWF (mergeRanges c lpr).source_locations := by
  intro lpr
  induction lpr with
  | nil =>
    intro c hwf _
    simpa [mergeRanges] using hwf
  | cons p rest ih =>
    intro c hwf hall
    have hv := hall p (by simp)
    have hwf1 : tableWF (mergeStep c p.1 p.2).source_locations := by
      rw [mergeStep_source_locations]
      exact insertFull_preserves_WF hwf hv
    have hlen1 : c.source_locations.length ≤ (mergeStep c p.1 p.2).source_locations.length := by
      rw [mergeStep_source_locations]
      exact insertFull_length_le _ _
    have hrest : ∀ q ∈ rest,
        handlesBelow (mergeStep c p.1 p.2).source_locations.length q.2 = true :=
      fun q hq => handlesBelow_mono hlen1 (hall q (List.mem_cons_of_mem _ hq))
    have := ih (mergeStep c p.1 p.2) hwf1 hrest
    simpa [mergeRanges] using this

/-- C3: the `inlined_into_idx` chains are acyclic and terminate after a
bounded number of steps: (i) in a well-formed table, the chain from any
handle `h` reaches a location with no `inlined_into_idx` within `h + 1`
steps; (ii) interning a location whose handle points into the current
table preserves well-formedness, because each `inlined_into` ever
assigned refers to an already-interned location; (iii) the
inlined-subroutine processing preserves well-formedness of the table and
keeps every breakpoint-map handle pointing into the table; (iv) merging a
unit's breakpoints into the global table preserves well-formedness. -/
theorem chain_termination_claim_C3 :
    (∀ (t : List SourceLocation) (h : Nat), tableWF t → h < t.length →
      reachesRoot t (h + 1) h = true)
    ∧ (∀ (t : List SourceLocation) (sl : SourceLocation), tableWF t →
        handlesBelow t.length sl = true → tableWF (insertFull t sl).2)
    ∧ (∀ (cf cl : Nat) (sel : Nat → Bool) (rs : List (Nat × SourceLocation)) (c : Converter),
        tableWF c.source_locations →
        (∀ p ∈ rs, handlesBelow c.source_locations.length p.2 = true) →
        tableWF (processEntries c cf cl sel rs).1.source_locations
        ∧ ∀ p ∈ (processEntries c cf cl sel rs).2,
            handlesBelow (processEntries c cf cl sel rs).1.source_locations.length p.2 = true)
    ∧ ∀ (c : Converter) (lpr : List (Nat × SourceLocation)),
        tableWF c.source_locations →
        (∀ p ∈ lpr, handlesBelow c.source_locations.length p.2 = true) →
        tableWF (mergeRanges c lpr).source_locations :=
  ⟨fun _ h hwf hlt => tableWF_reaches hwf h hlt,
   fun _ _ hwf hb => insertFull_preserves_WF hwf hb,
   fun cf cl sel rs c hwf hall => processEntries_preserves_WF cf cl sel rs c hwf hall,
   fun c lpr hwf hall => mergeRanges_preserves_WF lpr c hwf hall⟩

/-- Witness for C3: in the one-entry table whose location has no
`inlined_into_idx`, the chain from handle 0 terminates within one step. -/
theorem chain_termination_claim_C3_witness :
    reachesRoot [⟨0, 0, 0, none⟩] 1 0 = true :=
  chain_termination_claim_C3.1 [⟨0, 0, 0, none⟩] 0
    (by
      intro i sl hget
      rcases i with _ | n
      · simp only [List.getElem?_cons_zero, Option.some.injEq] at hget
        subst hget
        decide
      · simp at hget)
    (by decide)

/-- Pointwise description of `processEntries`: a selected entry is
rewritten to point at the freshly interned caller location (which is the
old value with file and line replaced, and which stays in the final table
at the returned handle); an unselected entry is untouched. The size bound
keeps the `as u32` handle truncation the identity. -/
theorem processEntries_lookup (cf cl : Nat) (sel : Nat → Bool) :
    ∀ (rs : List (Nat × SourceLocation)) (c : Converter) (k : Nat) (B : SourceLocation),
      c.source_locations.length + rs.length ≤ 2 ^ 32 →
      lookupSL rs k = some B →
      (sel k = true →
        ∃ h, lookupSL (processEntries c cf cl sel rs).2 k =
            some { B with inlined_into_idx := some h, function_idx := u32MAX }
          ∧ (processEntries c cf cl sel rs).1.source_locations[h]? =
            some ⟨cf, cl, B.function_idx, B.inlined_into_idx⟩)
      ∧ (sel k = false →
          lookupSL (processEntries c cf cl sel rs).2 k = some B) := by
  intro rs
  induction rs with
  | nil =>
    intro c k B _ hlook
    simp [lookupSL] at hlook
  | cons p rest ih =>
    intro c k B hsize hlook
    obtain ⟨k0, v⟩ := p
    by_cases hk : k = k0
    · subst hk
      have hBv : v = B := by simpa [lookupSL] using hlook
      subst hBv
      constructor
      · intro hsel
        have h1 := insertFull_idx_lt_length c.source_locations
          { v with file_idx := cf, line := cl }
        have h2 := insertFull_length_le_succ c.source_locations
          { v with file_idx := cf, line := cl }
        have hsz := hsize
        simp only [List.length_cons] at hsz
        have hidxlt : (insertFull c.source_locations { v with file_idx := cf, line := cl }).1
            < 2 ^ 32 := by omega
        have hmod : u32Mod (insertFull c.source_locations
              { v with file_idx := cf, line := cl }).1 =
            (insertFull c.source_locations { v with file_idx := cf, line := cl }).1 :=
          Nat.mod_eq_of_lt hidxlt
        refine ⟨(insertFull c.source_locations { v with file_idx := cf, line := cl }).1, ?_, ?_⟩
        · simp [processEntries, hsel, lookupSL, processInlinedBreakpoint,
            insert_source_location, hmod]
        · have hstable := (processEntries_mono cf cl sel rest
            (processInlinedBreakpoint c cf cl v).1).2
          have hlt2 : (insertFull c.source_locations { v with file_idx := cf, line := cl }).1
              < (processInlinedBreakpoint c cf cl v).1.source_locations.length := by
            simp only [processInlinedBreakpoint, insert_source_location]
            exact insertFull_idx_lt_length _ _
          have hget := insertFull_getElem_idx c.source_locations
            { v with file_idx := cf, line := cl }
          simp only [processEntries, hsel, if_true]
          rw [hstable _ hlt2]
          simp only [processInlinedBreakpoint, insert_source_location]
          exact hget
      · intro hsel
        simp [processEntries, hsel, lookupSL]
    · have hlook' : lookupSL rest k = some B := by simpa [lookupSL, hk] using hlook
      have hsz := hsize
      simp only [List.length_cons] at hsz
      by_cases hsel0 : sel k0 = true
      · have hszr : (processInlinedBreakpoint c cf cl v).1.source_locations.length +
            rest.length ≤ 2 ^ 32 := by
          have := insertFull_length_le_succ c.source_locations
            { v with file_idx := cf, line := cl }
          simp only [processInlinedBreakpoint, insert_source_location]
          omega
        have ihr := ih (processInlinedBreakpoint c cf cl v).1 k B hszr hlook'
        constructor
        · intro hsel
          obtain ⟨h, hl, hg⟩ := ihr.1 hsel
          exact ⟨h, by simpa [processEntries, hsel0, lookupSL, hk] using hl,
            by simpa [processEntries, hsel0] using hg⟩
        · intro hsel
          have := ihr.2 hsel
          simpa [processEntries, hsel0, lookupSL, hk] using this
      · have ihr := ih c k B (by omega) hlook'
        constructor
        · intro hsel
          obtain ⟨h, hl, hg⟩ := ihr.1 hsel
          exact ⟨h, by simpa [processEntries, hsel0, lookupSL, hk] using hl,
            by simpa [processEntries, hsel0] using hg⟩
        · intro hsel
          have := ihr.2 hsel
          simpa [processEntries, hsel0, lookupSL, hk] using this

/-- C2: for every breakpoint `B` selected by the range-splitting primitive
(the keys accepted by `inRangeKey`, which by definition of `sub_ranges`
are exactly the keys of `sub_ranges rs b e`), the inlined-subroutine
processing interns a caller location equal to `B` except that its file is
the resolved call-file and its line the call-line, inheriting `B`'s
current `inlined_into_idx`, and rewrites `B` so that only its
`inlined_into_idx` (now the interned handle, whose table entry is that
caller) and `function_idx` change — its own file and line are untouched;
unselected breakpoints are unchanged. The call-file resolves to handle 0
and the call-line to 0 when the respective attribute is absent. -/
theorem inline_caller_attribution_claim_C2 :
    (∀ (cache : PerCuCache) (conv : Converter),
      resolveCallerFile cache conv none = .ok (0, cache, conv))
    ∧ (∀ (cache : PerCuCache) (conv : Converter) (fid : Nat),
        resolveCallerFile cache conv (some fid) = insert_file cache conv fid)
    ∧ resolveCallerLine none = 0
    ∧ (∀ l : Nat, resolveCallerLine (some l) = u32Mod l)
    ∧ ∀ (c : Converter) (cf cl : Nat) (rs : List (Nat × SourceLocation)) (b e k : Nat)
        (B : SourceLocation),
        c.source_locations.length + rs.length ≤ 2 ^ 32 →
        lookupSL rs k = some B →
        (inRangeKey rs b e k = true →
          ∃ h, lookupSL (processInlinedRange c cf cl rs b e).2 k =
              some { B with inlined_into_idx := some h, function_idx := u32MAX }
            ∧ (processInlinedRange c cf cl rs b e).1.source_locations[h]? =
              some ⟨cf, cl, B.function_idx, B.inlined_into_idx⟩)
        ∧ (inRangeKey rs b e k = false →
            lookupSL (processInlinedRange c cf cl rs b e).2 k = some B) := by
  refine ⟨fun _ _ => rfl, fun _ _ _ => rfl, rfl, fun _ => rfl, ?_⟩
  intro c cf cl rs b e k B hsize hlook
  exact processEntries_lookup cf cl (fun kk => inRangeKey rs b e kk) rs c k B hsize hlook

/-- Witness for C2: over the one-breakpoint map at address 10 with call
site (file 3, line 4) and PC range [10, 11), the breakpoint is rewritten
to point at the interned caller location (3, 4). -/
theorem inline_caller_attribution_claim_C2_witness :
    ∃ h, lookupSL (processInlinedRange ⟨[], [], [], []⟩ 3 4 [(10, bpExample 1)] 10 11).2 10 =
        some { bpExample 1 with inlined_into_idx := some h, function_idx := u32MAX }
      ∧ (processInlinedRange ⟨[], [], [], []⟩ 3 4
            [(10, bpExample 1)] 10 11).1.source_locations[h]? =
          some ⟨3, 4, (bpExample 1).function_idx, (bpExample 1).inlined_into_idx⟩ :=
  (inline_caller_attribution_claim_C2.2.2.2.2 ⟨[], [], [], []⟩ 3 4 [(10, bpExample 1)]
    10 11 10 (bpExample 1) (by norm_num) rfl).1 (by decide)

/-! Claims C9 and C10: the `insert_file` sentinel path. -/

theorem resolveDirectory_files {conv : Converter} {d : Option (Except GimliError String)}
    {r : Option Nat × Converter} (h : resolveDirectory conv d = .ok r) :
    r.2.files = conv.files := by
  cases d with
  | none =>
    simp only [resolveDirectory, Except.ok.injEq] at h
    rw [← h]
  | some attr =>
    cases attr with
    | error e => simp [resolveDirectory] at h
    | ok s =>
      simp only [resolveDirectory, Except.ok.injEq] at h
      rw [← h]

theorem insertFull_idx_le_length {α : Type} [DecidableEq α] (t : List α) (v : α) :
    (insertFull t v).1 ≤ t.length := by
  have h1 := insertFull_idx_lt_length t v
  have h2 := insertFull_length_le_succ t v
  omega

/-- On the successful interning path (cache miss, file-table hit), the
returned handle is at most the previous `files` table size, the cache
gains exactly the one new pair, and the file table is unchanged. -/
theorem insert_file_ok_bound {cache : PerCuCache} {conv : Converter} {fi : Nat}
    {res : Nat × PerCuCache × Converter}
    (hc : btreeLookup cache.file_mapping (u32Mod fi) = none)
    {entry : FileEntry} (hft : cache.fileTable[fi]? = some entry)
    (hok : insert_file cache conv fi = .ok res) :
    res.1 ≤ conv.files.length
    ∧ res.2.1.file_mapping = cache.file_mapping ++ [(u32Mod fi, res.1)]
    ∧ res.2.1.fileTable = cache.fileTable := by
  simp only [insert_file, hc, hft] at hok
  cases hdir : resolveDirectory conv entry.directory with
  | error e =>
    simp only [hdir] at hok
    cases hok
  | ok dr =>
    obtain ⟨didx, conv1⟩ := dr
    simp only [hdir] at hok
    cases hpath : entry.path_name with
    | error e =>
      simp only [hpath] at hok
      cases hok
    | ok path =>
      simp only [hpath, Except.ok.injEq] at hok
      have hfiles : conv1.files = conv.files := resolveDirectory_files hdir
      have hlen2 : conv1.files.length = conv.files.length := by rw [hfiles]
      subst hok
      refine ⟨?_, rfl, rfl⟩
      have hle := insertFull_idx_le_length conv1.files
        (⟨didx, u32Mod (insertFull conv1.strings path).1⟩ : File)
      have hmod := Nat.mod_le (insertFull conv1.files
        (⟨didx, u32Mod (insertFull conv1.strings path).1⟩ : File)).1 (2 ^ 32)
      simp only [u32Mod] at *
      omega

/-- C9 (amended): a unit-local file index that misses the per-unit cache
(which is keyed by the index truncated with `as u32`) and has no
corresponding file-table entry makes `insert_file` return the sentinel
`u32MAX` successfully (an `.ok` value, never an error) with the cache and
converter untouched; and, provided fewer than `u32MAX` distinct files
have been interned, the real interning path never returns the sentinel
handle. -/
theorem file_sentinel_claim_C9 :
    (∀ (cache : PerCuCache) (conv : Converter) (fi : Nat),
      btreeLookup cache.file_mapping (u32Mod fi) = none →
      cache.fileTable[fi]? = none →
      insert_file cache conv fi = .ok (u32MAX, cache, conv))
    ∧ ∀ (cache : PerCuCache) (conv : Converter) (fi : Nat)
        (res : Nat × PerCuCache × Converter) (entry : FileEntry),
        conv.files.length < u32MAX →
        btreeLookup cache.file_mapping (u32Mod fi) = none →
        cache.fileTable[fi]? = some entry →
        insert_file cache conv fi = .ok res →
        res.1 ≠ u32MAX := by
  constructor
  · intro cache conv fi hc hft
    simp [insert_file, hc, hft]
  · intro cache conv fi res entry hlen hc hft hok
    have hb := (insert_file_ok_bound hc hft hok).1
    omega

/-- Witness for C9: resolving index 5 over an empty file table returns the
sentinel successfully with nothing changed. -/
theorem file_sentinel_claim_C9_witness :
    insert_file ⟨[], []⟩ ⟨[], [], [], []⟩ 5 = .ok (u32MAX, ⟨[], []⟩, ⟨[], [], [], []⟩) :=
  file_sentinel_claim_C9.1 ⟨[], []⟩ ⟨[], [], [], []⟩ 5 rfl rfl

/-- Full computation of `insert_file` over a converter that has already
interned `u32MAX` distinct files: the present index 0 resolves through the
real interning path and yields the sentinel handle `u32MAX`. -/
theorem insert_file_big_compute :
    insert_file sentinelFileCache bigFilesConverter 0 =
      .ok (u32MAX, ⟨[(0, u32MAX)], [⟨none, Except.ok "a"⟩]⟩,
        ⟨["a"], bigFiles ++ [⟨none, 0⟩], [], []⟩) := by
  have hnm : (⟨none, 0⟩ : File) ∉ bigFiles := by
    simp [bigFiles, File.mk.injEq]
  have h3 := insertFull_of_not_mem hnm
  have hlen : bigFiles.length = u32MAX := by
    simp [bigFiles]
  have hm : u32Mod u32MAX = u32MAX := by norm_num [u32Mod, u32MAX]
  have shape : ∀ fl : List File,
      insert_file ⟨[], [⟨none, Except.ok "a"⟩]⟩ ⟨[], fl, [], []⟩ 0 =
        (let r3 := insertFull fl ⟨none, 0⟩
         Except.ok (u32Mod r3.1,
           ⟨[(0, u32Mod r3.1)], [⟨none, Except.ok "a"⟩]⟩,
           ⟨["a"], r3.2, [], []⟩)) := fun fl => rfl
  show insert_file ⟨[], [⟨none, Except.ok "a"⟩]⟩ ⟨[], bigFiles, [], []⟩ 0 = _
  rw [shape bigFiles]
  simp only [h3, hlen]
  rw [hm]

/-- Counterexample for C9 as stated, in two parts: (i) the file index 0 is
present in the file table, so its resolution goes through real interning,
yet the returned handle is the sentinel `u32MAX`, because `u32MAX` files
were already interned and `insert_full(..).0 as u32` reaches the reserved
value; (ii) the index `2 ^ 32` has no file-table entry (the table has one
entry), yet `insert_file` returns the cached non-sentinel handle 0 rather
than the sentinel, because the per-unit cache is keyed by
`file_index as u32` and `2 ^ 32` truncates to the previously cached
index 0. -/
theorem file_sentinel_claim_C9_counterexample :
    (insert_file sentinelFileCache bigFilesConverter 0 =
        .ok (u32MAX, ⟨[(0, u32MAX)], [⟨none, Except.ok "a"⟩]⟩,
          ⟨["a"], bigFiles ++ [⟨none, 0⟩], [], []⟩)
      ∧ (sentinelFileCache.fileTable[(0 : Nat)]?).isSome = true)
    ∧ insert_file ⟨[(0, 0)], [⟨none, Except.ok "a"⟩]⟩ ⟨["a"], [⟨none, 0⟩], [], []⟩ (2 ^ 32) =
        .ok (0, ⟨[(0, 0)], [⟨none, Except.ok "a"⟩]⟩, ⟨["a"], [⟨none, 0⟩], [], []⟩)
    ∧ (([⟨none, Except.ok "a"⟩] : List FileEntry)[2 ^ 32]?) = none :=
  ⟨⟨insert_file_big_compute, rfl⟩, rfl, rfl⟩

/-- C10 (amended): a call with an index that misses the per-unit cache
(which is keyed by the index truncated with `as u32`) and is absent from
the file table returns the sentinel without adding any cache entry and
without touching the converter, so a repeated call with the same index
again misses the cache and re-checks the file table; and, provided fewer
than `u32MAX` distinct files have been interned, `insert_file` preserves
the cache property of mapping only table-existing indices to non-sentinel
handles. -/
theorem cache_untouched_claim_C10 :
    (∀ (cache : PerCuCache) (conv : Converter) (fi : Nat),
      btreeLookup cache.file_mapping (u32Mod fi) = none →
      cache.fileTable[fi]? = none →
      insert_file cache conv fi = .ok (u32MAX, cache, conv))
    ∧ ∀ (cache : PerCuCache) (conv : Converter) (fi : Nat)
        (res : Nat × PerCuCache × Converter),
        conv.files.length < u32MAX →
        cacheInv cache →
        insert_file cache conv fi = .ok res →
        cacheInv res.2.1 := by
  constructor
  · intro cache conv fi hc hft
    simp [insert_file, hc, hft]
  · intro cache conv fi res hlen hinv hok
    cases hc : btreeLookup cache.file_mapping (u32Mod fi) with
    | some v =>
      simp only [insert_file, hc, Except.ok.injEq] at hok
      subst hok
      exact hinv
    | none =>
      cases hft : cache.fileTable[fi]? with
      | none =>
        simp only [insert_file, hc, hft, Except.ok.injEq] at hok
        subst hok
        exact hinv
      | some entry =>
        obtain ⟨hb, hmap, htab⟩ := insert_file_ok_bound hc hft hok
        intro p hp
        rw [hmap] at hp
        rw [htab]
        rcases List.mem_append.mp hp with hp1 | hp2
        · exact hinv p hp1
        · simp only [List.mem_singleton] at hp2
          subst hp2
          have hfi : fi < cache.fileTable.length := (List.getElem?_eq_some.mp hft).1
          have hmodlt : u32Mod fi < cache.fileTable.length :=
            lt_of_le_of_lt (Nat.mod_le _ _) hfi
          have h32 : u32MAX = 2 ^ 32 - 1 := rfl
          constructor
          · simp [List.getElem?_eq_getElem hmodlt]
          · simp only []
            omega

/-- Witness for C10: a successful resolution over a one-entry file table
and an empty cache leaves the cache mapping index 0 to the non-sentinel
handle 0. -/
theorem cache_untouched_claim_C10_witness :
    cacheInv ⟨[(0, 0)], [⟨none, Except.ok "a"⟩]⟩ :=
  cache_untouched_claim_C10.2 ⟨[], [⟨none, Except.ok "a"⟩]⟩ ⟨[], [], [], []⟩ 0
    (0, ⟨[(0, 0)], [⟨none, Except.ok "a"⟩]⟩, ⟨["a"], [⟨none, 0⟩], [], []⟩)
    (by norm_num [u32MAX]) (by simp [cacheInv]) rfl

/-- Counterexample for C10 as stated, in two parts: (i) after the
sentinel-producing resolution of `insert_file_big_compute`, the per-unit
cache maps index 0 to the sentinel handle `u32MAX` itself; (ii) a call
with index `2 ^ 32`, which is absent from the one-entry file table, hits
the cache at the truncated key 0 (`file_index as u32`) and returns the
cached handle with the state unchanged, never re-checking the file
table. -/
theorem cache_untouched_claim_C10_counterexample :
    (insert_file sentinelFileCache bigFilesConverter 0 =
        .ok (u32MAX, ⟨[(0, u32MAX)], [⟨none, Except.ok "a"⟩]⟩,
          ⟨["a"], bigFiles ++ [⟨none, 0⟩], [], []⟩)
      ∧ btreeLookup [(0, u32MAX)] 0 = some u32MAX)
    ∧ insert_file ⟨[(0, 0)], [⟨none, Except.ok "a"⟩]⟩ ⟨["a"], [⟨none, 0⟩], [], []⟩ (2 ^ 32) =
        .ok (0, ⟨[(0, 0)], [⟨none, Except.ok "a"⟩]⟩, ⟨["a"], [⟨none, 0⟩], [], []⟩)
    ∧ btreeLookup [(0, 0)] (u32Mod (2 ^ 32)) = some 0
    ∧ (([⟨none, Except.ok "a"⟩] : List FileEntry)[2 ^ 32]?) = none :=
  ⟨⟨insert_file_big_compute, rfl⟩, rfl, rfl, rfl⟩

end Symbolic
